import Mathlib

/-!
Verification development for the photon HBT pairing task
(`PWGEM/PhotonMeson/Tasks/PhotonHBT.cxx`).

The C++ task is shallowly embedded below:

* `PairType` mirrors the `PairType` enum.
* `EMEvent` models one row of the joined reduced-event table: the fields
  read by the task (`collisionId`, `posZ`, `numContrib`, `sel8`,
  `isPHOSCPVreadout`, `ngpcm`, `ngphos`, `ngemc`, `multNTracksPV`).
* `add_pair_histograms` models the startup bucket creation loop.
* `IsSelectedPair` models the pair selector; the external cut objects are
  abstracted as boolean predicates on the candidate, which is all the
  dispatcher looks at.
* `sameEventStageCount` models the gate chain at the top of
  `SameEventPairing` (number of `hCollisionCounter` fills for one event).
* `collisionFilter_common` / `collisionFilter_subsys` model the two soa
  `Filter` expressions feeding `MixedEventPairing`.
* `findBin`, `colBin`, `groupsBy`, `supRuns`, `flattenRuns`, `binRuns`,
  `mixPairs` model `soa::selfCombinations(colBinning, 1e3, -1, ...)`:
  events are keyed by the (vertex-z, multiplicity) bin, events outside the
  configured edges are dropped (outsider bin, ignore-overflows policy),
  and within one bin each event is paired, strictly-upper, with up to 1000
  following events of the same bin.
* `mixLoop` models the body of the mixed-event loop: the
  `index_coll1` / `nev` state machine with its depth cut and the
  per-pairtype candidate-count gates; `mixProcessed` is the full pipeline
  from the unfiltered event list to the list of event pairs that reach the
  cut loops and histogram fills.
* `V3`, `V4`, `ptEtaPhiM0`, `rootM`, `q12`, `k12`, `uvOut`, `uvLong`,
  `uvSide`, `hbtTransform` model the kinematic computation performed for
  every accepted pair (`qinv`, `qlong`, `qout`, `qside`, `kt`), with ROOT's
  `PtEtaPhiMVector`/`XYZVector` arithmetic spelled out over the reals and
  ROOT's signed-square-root mass convention in `rootM`.
-/

/-- The `PairType` enum of the task. -/
inductive PairType where
  | kPCMPCM
  | kPHOSPHOS
  | kEMCEMC
  | kPCMPHOS
  | kPCMEMC
  | kPHOSEMC
deriving DecidableEq

/-- One row of the reduced-event table, restricted to the columns the task
reads.  `posZ` and `multNTracksPV` are modelled as rationals (the C++
doubles never undergo arithmetic in the task other than `abs` and
comparisons against the configured edges).  `numContrib` is the unsigned
contributor count. -/
structure EMEvent where
  collisionId : ℤ
  posZ : ℚ
  numContrib : ℕ
  sel8 : Bool
  isPHOSCPVreadout : Bool
  ngpcm : ℕ
  ngphos : ℕ
  ngemc : ℕ
  multNTracksPV : ℚ
deriving DecidableEq

/-- Startup bucket creation (`add_pair_histograms`): the double cut loop,
skipping off-diagonal combinations for the symmetric pair names, and
registering a histogram class named `cut1_cut2` otherwise. -/
def add_pair_histograms (pairname : String) (cuts1 cuts2 : List String) : List String :=
  cuts1.flatMap (fun cutname1 =>
    (cuts2.filter (fun cutname2 =>
      decide (¬((pairname = "PCMPCM" ∨ pairname = "PHOSPHOS" ∨ pairname = "EMCEMC")
        ∧ cutname1 ≠ cutname2)))).map
      (fun cutname2 => cutname1 ++ "_" ++ cutname2))

/-- Modelled from the spec: for symmetric pair types only diagonal
(`cut1 == cut2` by name) buckets exist. -/
def diagonalBuckets (cuts1 cuts2 : List String) : List String :=
  cuts1.flatMap (fun c1 =>
    (cuts2.filter (fun c2 => decide (c1 = c2))).map (fun c2 => c1 ++ "_" ++ c2))

/-- Modelled from the spec: for asymmetric pair types the full
`cut1 × cut2` cross-product of buckets exists. -/
def productBuckets (cuts1 cuts2 : List String) : List String :=
  cuts1.flatMap (fun c1 => cuts2.map (fun c2 => c1 ++ "_" ++ c2))

/-- `IsSelectedPair`: dispatch on the pair type; for the three implemented
pair types the result is `is_g1_passed & is_g2_passed` where each flag is
the respective cut's acceptance of the respective candidate (the external
cut object is abstracted as a boolean predicate); every other pair type
falls into the final `else` branch, which returns `true` outright. -/
def IsSelectedPair {γ₁ γ₂ : Type} (pt : PairType)
    (cut1 : γ₁ → Bool) (cut2 : γ₂ → Bool) (g1 : γ₁) (g2 : γ₂) : Bool :=
  match pt with
  | PairType.kPCMPCM => cut1 g1 && cut2 g2
  | PairType.kPHOSPHOS => cut1 g1 && cut2 g2
  | PairType.kPCMPHOS => cut1 g1 && cut2 g2
  | _ => true

/-- The PHOS companion readout gate at the very top of `SameEventPairing`:
`if ((pairtype == kPHOSPHOS || pairtype == kPCMPHOS) && !collision.isPHOSCPVreadout()) continue;`.
Returns `true` when the event survives that line. -/
def phosGate (pt : PairType) (e : EMEvent) : Bool :=
  !(decide (pt = PairType.kPHOSPHOS ∨ pt = PairType.kPCMPHOS) && !e.isPHOSCPVreadout)

/-- Number of `hCollisionCounter` fills an event receives in
`SameEventPairing`: 0 if it is dropped by the PHOS readout gate (which
precedes the first fill), 1 if it fails `sel8`, 2 if it fails the
contributor gate (`numContrib() < 0.5` on an unsigned count,
i.e. `numContrib == 0`), 3 if it fails `abs(posZ()) > 10.0 → continue`,
and 4 if it reaches the pairing code. -/
def sameEventStageCount (pt : PairType) (e : EMEvent) : ℕ :=
  if phosGate pt e = false then 0
  else if e.sel8 = false then 1
  else if e.numContrib = 0 then 2
  else if 10 < |e.posZ| then 3
  else 4

/-- An event is paired in `SameEventPairing` iff it survives all four
gates, i.e. receives all four counter fills. -/
def sameEventAccepted (pt : PairType) (e : EMEvent) : Bool :=
  decide (sameEventStageCount pt e = 4)

/-- `Filter collisionFilter_common = nabs(posZ) < 10.f && numContrib > 0 && sel8 == true`. -/
def collisionFilter_common (e : EMEvent) : Bool :=
  decide (|e.posZ| < 10) && decide (0 < e.numContrib) && e.sel8

/-- `Filter collisionFilter_subsys = ngpcm >= 2 || ngphos >= 2 || (ngpcm >= 1 && ngphos >= 1)`. -/
def collisionFilter_subsys (e : EMEvent) : Bool :=
  decide (2 ≤ e.ngpcm) || decide (2 ≤ e.ngphos)
    || (decide (1 ≤ e.ngpcm) && decide (1 ≤ e.ngphos))

/-- `ConfVtxBins`: variable-width vertex-z bin edges. -/
def confVtxBins : List ℚ := [-10, -8, -6, -4, -2, 0, 2, 4, 6, 8, 10]

/-- `ConfMultBins`: variable-width multiplicity bin edges (the last edge is
the literal `1e+10`). -/
def confMultBins : List ℚ := [0, 10, 20, 40, 60, 80, 100, 200, 10000000000]

/-- Locate `x` in a variable-width edge list: `some i` when
`edges[i] ≤ x < edges[i+1]`, `none` when `x` is below the first or at or
above the last edge (the under/overflow bins, which the policy ignores). -/
def findBin (edges : List ℚ) (x : ℚ) : Option ℕ :=
  match edges with
  | e1 :: e2 :: rest =>
    if x < e1 then none
    else if x < e2 then some 0
    else (findBin (e2 :: rest) x).map Nat.succ
  | _ => none

/-- `ColumnBinningPolicy<PosZ, MultNTracksPV>` bin of an event: the pair of
bin indices, or `none` for the outsider bin. -/
def colBin (e : EMEvent) : Option (ℕ × ℕ) :=
  match findBin confVtxBins e.posZ, findBin confMultBins e.multNTracksPV with
  | some i, some j => some (i, j)
  | _, _ => none

/-- Fuel-driven partition of a list into its bin groups (first-appearance
order, each group in event order).  The fuel makes the recursion
structural so that concrete instances reduce in the kernel. -/
def groupsByAux (key : EMEvent → Option (ℕ × ℕ)) : ℕ → List EMEvent → List (List EMEvent)
  | 0, _ => []
  | _, [] => []
  | fuel + 1, x :: xs =>
    (x :: xs.filter (fun y => decide (key y = key x)))
      :: groupsByAux key fuel (xs.filter (fun y => !(decide (key y = key x))))

/-- Partition of the event list into same-bin groups. -/
def groupsBy (key : EMEvent → Option (ℕ × ℕ)) (l : List EMEvent) : List (List EMEvent) :=
  groupsByAux key l.length l

/-- Strictly-upper runs of a group with the sliding window of the
combination policy: each event becomes an anchor paired with up to `w`
following events of the same group (the task passes `1e3`). -/
def supRuns (w : ℕ) : List EMEvent → List (EMEvent × List EMEvent)
  | [] => []
  | x :: xs => (x, xs.take w) :: supRuns w xs

/-- Flatten anchor runs into the iterated `(collision1, collision2)`
sequence. -/
def flattenRuns : List (EMEvent × List EMEvent) → List (EMEvent × EMEvent)
  | [] => []
  | r :: rest => r.2.map (fun p => (r.1, p)) ++ flattenRuns rest

/-- Anchor runs of a whole list of bin groups. -/
def binRuns (w : ℕ) : List (List EMEvent) → List (EMEvent × List EMEvent)
  | [] => []
  | g :: gs => supRuns w g ++ binRuns w gs

/-- Concatenation of the bin groups. -/
def joinGroups : List (List EMEvent) → List EMEvent
  | [] => []
  | g :: gs => g ++ joinGroups gs

/-- Anchor collision ids of a run list. -/
def runAnchors (rs : List (EMEvent × List EMEvent)) : List ℤ :=
  rs.map (fun r => r.1.collisionId)

/-- The `(collision1, collision2)` sequence produced by
`soa::selfCombinations(colBinning, 1e3, -1, collisions, collisions)`:
same-bin, strictly upper, window 1000, outsider-bin events dropped. -/
def mixPairs (evs : List EMEvent) : List (EMEvent × EMEvent) :=
  flattenRuns (binRuns 1000 (groupsBy colBin (evs.filter (fun e => (colBin e).isSome))))

/-- The per-pairtype candidate-count gates inside the mixed-event loop
(the three `continue`-on-insufficient-candidates branches). -/
def mixGatePass (pt : PairType) (c1 c2 : EMEvent) : Bool :=
  if pt = PairType.kPCMPCM then !(decide (c1.ngpcm < 2) || decide (c2.ngpcm < 2))
  else if pt = PairType.kPHOSPHOS then !(decide (c1.ngphos < 2) || decide (c2.ngphos < 2))
  else if pt = PairType.kPCMPHOS then
    !((decide (c1.ngpcm < 1) || decide (c1.ngphos < 1))
      || (decide (c2.ngpcm < 1) || decide (c2.ngphos < 1)))
  else true

/-- The value of `nev` after the reset check at the top of the loop body:
it is reset to 0 exactly when the stored `index_coll1` differs from the
current anchor's collision id. -/
def mixNev0 (st : ℤ × ℤ) (c : EMEvent × EMEvent) : ℤ :=
  if st.1 = c.1.collisionId then st.2 else 0

/-- Whether the current `(collision1, collision2)` pair survives both the
depth cut `if (nev > ndepth) continue;` and the candidate-count gates, so
that its photon pairs are enumerated and filled. -/
def mixKeep (pt : PairType) (nd : ℤ) (st : ℤ × ℤ) (c : EMEvent × EMEvent) : Bool :=
  decide (¬(nd < mixNev0 st c)) && mixGatePass pt c.1 c.2

/-- State update of one loop iteration: `index_coll1` always becomes the
current anchor id, and `nev` is incremented (`nev++` at the bottom of the
body) exactly when the pair was kept, because every `continue` skips the
increment. -/
def mixStep (pt : PairType) (nd : ℤ) (st : ℤ × ℤ) (c : EMEvent × EMEvent) : ℤ × ℤ :=
  (c.1.collisionId, if mixKeep pt nd st c then mixNev0 st c + 1 else mixNev0 st c)

/-- The mixed-event loop over the enumerated event pairs, threading the
`(index_coll1, nev)` state and collecting the pairs that reach the fills. -/
def mixLoop (pt : PairType) (nd : ℤ) :
    List (EMEvent × EMEvent) → ℤ × ℤ → List (EMEvent × EMEvent)
  | [], _ => []
  | c :: rest, st =>
    (if mixKeep pt nd st c then [c] else []) ++ mixLoop pt nd rest (mixStep pt nd st c)

/-- Full mixed-event pipeline for one process function: the soa filters
select the pool, `mixPairs` enumerates same-bin strictly-upper event
pairs, and `mixLoop` runs the depth/gate state machine starting from
`index_coll1 = -999`, `nev = 0`. -/
def mixProcessed (pt : PairType) (nd : ℤ) (evs : List EMEvent) : List (EMEvent × EMEvent) :=
  mixLoop pt nd
    (mixPairs (evs.filter (fun e => collisionFilter_common e && collisionFilter_subsys e)))
    (-999, 0)

/-- Number of processed pairs whose anchor (`collision1`) has id `a`. -/
def countAnchor (a : ℤ) (l : List (EMEvent × EMEvent)) : ℕ :=
  l.countP (fun p => decide (p.1.collisionId = a))

/-- Strictly-upper-triangular pair enumeration
(`CombinationsStrictlyUpperIndexPolicy` over one candidate list). -/
def strictlyUpperPairs {α : Type} : List α → List (α × α)
  | [] => []
  | x :: xs => xs.map (fun y => (x, y)) ++ strictlyUpperPairs xs

/-- Index pairs enumerated for a sliced candidate list of length `n` in
the symmetric same-event branch. -/
def strictlyUpperIdx (n : ℕ) : List (ℕ × ℕ) :=
  strictlyUpperPairs (List.range n)

/-- A spatial 3-vector (`ROOT::Math::XYZVector`). -/
@[ext]
structure V3 where
  x : ℝ
  y : ℝ
  z : ℝ

/-- A four-vector in cartesian form `(px, py, pz, E)`.  ROOT's
`PtEtaPhiMVector` arithmetic (subtraction, addition, scaling) acts
componentwise on this representation. -/
@[ext]
structure V4 where
  px : ℝ
  py : ℝ
  pz : ℝ
  E : ℝ

/-- Componentwise sum. -/
def V4.add (a b : V4) : V4 := ⟨a.px + b.px, a.py + b.py, a.pz + b.pz, a.E + b.E⟩

/-- Componentwise difference. -/
def V4.sub (a b : V4) : V4 := ⟨a.px - b.px, a.py - b.py, a.pz - b.pz, a.E - b.E⟩

/-- Scalar multiple. -/
def V4.smul (c : ℝ) (a : V4) : V4 := ⟨c * a.px, c * a.py, c * a.pz, c * a.E⟩

/-- Spatial part (`Vect()`). -/
def V4.vect (a : V4) : V3 := ⟨a.px, a.py, a.pz⟩

/-- Invariant mass squared `M2() = E² − |p|²`. -/
def V4.m2 (a : V4) : ℝ := a.E ^ 2 - (a.px ^ 2 + a.py ^ 2 + a.pz ^ 2)

/-- Magnitude of the spatial momentum (`P()`). -/
noncomputable def V4.P (a : V4) : ℝ := Real.sqrt (a.px ^ 2 + a.py ^ 2 + a.pz ^ 2)

/-- Transverse momentum (`Pt()`). -/
noncomputable def V4.Pt (a : V4) : ℝ := Real.sqrt (a.px ^ 2 + a.py ^ 2)

/-- ROOT's `M()` sign convention: `√M2` for timelike vectors and
`−√(−M2)` for spacelike ones. -/
noncomputable def rootM (a : V4) : ℝ :=
  if 0 ≤ a.m2 then Real.sqrt a.m2 else -Real.sqrt (-a.m2)

/-- Dot product of spatial vectors. -/
def V3.dot (a b : V3) : ℝ := a.x * b.x + a.y * b.y + a.z * b.z

/-- Cross product of spatial vectors. -/
def V3.cross (a b : V3) : V3 :=
  ⟨a.y * b.z - a.z * b.y, a.z * b.x - a.x * b.z, a.x * b.y - a.y * b.x⟩

/-- Division of a spatial vector by a scalar. -/
noncomputable def V3.sdiv (a : V3) (c : ℝ) : V3 := ⟨a.x / c, a.y / c, a.z / c⟩

/-- `ROOT::Math::PtEtaPhiMVector(pt, eta, phi, 0.)` in cartesian form:
`px = pt cos φ`, `py = pt sin φ`, `pz = pt sinh η`, and for a massless
vector `E = |p|`. -/
noncomputable def ptEtaPhiM0 (pt eta phi : ℝ) : V4 :=
  ⟨pt * Real.cos phi, pt * Real.sin phi, pt * Real.sinh eta,
    Real.sqrt ((pt * Real.cos phi) ^ 2 + (pt * Real.sin phi) ^ 2 + (pt * Real.sinh eta) ^ 2)⟩

/-- `q12 = v1 - v2`. -/
def q12 (v1 v2 : V4) : V4 := v1.sub v2

/-- `k12 = 0.5 * (v1 + v2)`. -/
def k12 (v1 v2 : V4) : V4 := V4.smul 0.5 (v1.add v2)

/-- `uv_out = k12.Vect() / k12.P()`. -/
noncomputable def uvOut (v1 v2 : V4) : V3 := (k12 v1 v2).vect.sdiv (k12 v1 v2).P

/-- `uv_long = (0, 0, 1)`, the beam axis. -/
def uvLong : V3 := ⟨0, 0, 1⟩

/-- `uv_side = uv_out.Cross(uv_long)`. -/
noncomputable def uvSide (v1 v2 : V4) : V3 := (uvOut v1 v2).cross uvLong

/-- The five filled observables, in the order of the `values` array. -/
@[ext]
structure HBTValues where
  qinv : ℝ
  qlong : ℝ
  qout : ℝ
  qside : ℝ
  kt : ℝ

/-- The kinematic transform computed for each accepted pair:
`qinv = −q12.M()`, `kt = k12.Pt()`, and the projections of `q12.Vect()`
onto the out/long/side axes. -/
noncomputable def hbtTransform (v1 v2 : V4) : HBTValues :=
  { qinv := -(rootM (q12 v1 v2))
    qlong := (q12 v1 v2).vect.dot uvLong
    qout := (q12 v1 v2).vect.dot (uvOut v1 v2)
    qside := (q12 v1 v2).vect.dot (uvSide v1 v2)
    kt := (k12 v1 v2).Pt }

/-- The transform with its single partial operation made explicit: the
division `k12.Vect() / k12.P()` is the only operation in the reference
that is undefined on some input (`k12.P() == 0`); every other operation
(sums, products, square roots of sums of squares, the sign-convention
mass) is total.  The reference contains no guard, so the division is
reached on every call; this checked variant returns `none` exactly on the
degenerate inputs. -/
noncomputable def hbtTransformChecked (v1 v2 : V4) : Option HBTValues :=
  if (k12 v1 v2).P = 0 then none else some (hbtTransform v1 v2)

/-- Demonstration pool for the mixing-depth behaviour: 16 events that all
fall into the same mixing bin (`posZ = 0`, `multNTracksPV = 5`), all pass
the soa filters, and all carry at least two PCM photons, with distinct
collision ids `0 … 15`.  The first event is the anchor with 15 same-bin
partner events. -/
def mixDemoEvents : List EMEvent :=
  (List.range 16).map (fun i =>
    { collisionId := (i : ℤ), posZ := 0, numContrib := 1, sel8 := true,
      isPHOSCPVreadout := true, ngpcm := 2, ngphos := 0, ngemc := 0,
      multNTracksPV := 5 })

/-- Two filter-passing, same-bin events whose PHOS readout flag is down,
each carrying one PCM and one PHOS photon. -/
def readoutDemoEvent1 : EMEvent :=
  { collisionId := 0, posZ := 0, numContrib := 1, sel8 := true,
    isPHOSCPVreadout := false, ngpcm := 1, ngphos := 1, ngemc := 0,
    multNTracksPV := 5 }

/-- Second event of the readout demonstration pool. -/
def readoutDemoEvent2 : EMEvent :=
  { collisionId := 1, posZ := 0, numContrib := 1, sel8 := true,
    isPHOSCPVreadout := false, ngpcm := 1, ngphos := 1, ngemc := 0,
    multNTracksPV := 5 }

/-- An event dropped by the PHOS readout gate before any counter fill:
`sel8` set, one contributor, central vertex, but `isPHOSCPVreadout` down. -/
def readoutDemoEvent3 : EMEvent :=
  { collisionId := 7, posZ := 1, numContrib := 3, sel8 := true,
    isPHOSCPVreadout := false, ngpcm := 1, ngphos := 1, ngemc := 0,
    multNTracksPV := 5 }

/-- A boundary event: vertex z exactly at `10.0`, every other gate
passing. -/
def boundaryDemoEvent : EMEvent :=
  { collisionId := 3, posZ := 10, numContrib := 1, sel8 := true,
    isPHOSCPVreadout := true, ngpcm := 2, ngphos := 0, ngemc := 0,
    multNTracksPV := 5 }

/-- Copy of an event with the PHOS readout flag replaced. -/
def setReadout (b : Bool) (e : EMEvent) : EMEvent := { e with isPHOSCPVreadout := b }

lemma add_pair_sym_eq (pn : String)
    (h : pn = "PCMPCM" ∨ pn = "PHOSPHOS" ∨ pn = "EMCEMC") (cuts1 cuts2 : List String) :
    add_pair_histograms pn cuts1 cuts2 = diagonalBuckets cuts1 cuts2 := by
  unfold add_pair_histograms diagonalBuckets
  refine congrArg (List.flatMap cuts1) (funext fun c1 => ?_)
  refine congrArg (fun l => List.map (fun c2 => c1 ++ "_" ++ c2) l) ?_
  refine List.filter_congr fun c2 _ => ?_
  refine decide_eq_decide.mpr ?_
  constructor
  · intro hn
    by_contra hne
    exact hn ⟨h, hne⟩
  · intro he hc
    exact hc.2 he

lemma add_pair_asym_eq (pn : String)
    (h : ¬(pn = "PCMPCM" ∨ pn = "PHOSPHOS" ∨ pn = "EMCEMC")) (cuts1 cuts2 : List String) :
    add_pair_histograms pn cuts1 cuts2 = productBuckets cuts1 cuts2 := by
  unfold add_pair_histograms productBuckets
  refine congrArg (List.flatMap cuts1) (funext fun c1 => ?_)
  have hf : (cuts2.filter (fun c2 =>
      decide (¬((pn = "PCMPCM" ∨ pn = "PHOSPHOS" ∨ pn = "EMCEMC") ∧ c1 ≠ c2)))) = cuts2 := by
    refine List.filter_eq_self.mpr fun c2 _ => ?_
    exact decide_eq_true (fun hc => h hc.1)
  rw [hf]

/-- Claim C5: bucket creation follows the pairtype matching rule — for the
three symmetric pair names only diagonal (equal-name) buckets are created
and for the other pair names the full cross-product is created; with PCM
cuts `analysis,qc,nocut` and pair type PCM-PCM exactly the 3 diagonal
buckets exist, and with PCM cut `analysis` and PHOS cuts `test02,test03`
and pair type PCM-PHOS exactly 2 buckets exist. -/
theorem pair_bucket_rule :
    (∀ cuts1 cuts2 : List String,
      add_pair_histograms "PCMPCM" cuts1 cuts2 = diagonalBuckets cuts1 cuts2
      ∧ add_pair_histograms "PHOSPHOS" cuts1 cuts2 = diagonalBuckets cuts1 cuts2
      ∧ add_pair_histograms "EMCEMC" cuts1 cuts2 = diagonalBuckets cuts1 cuts2
      ∧ add_pair_histograms "PCMPHOS" cuts1 cuts2 = productBuckets cuts1 cuts2
      ∧ add_pair_histograms "PCMEMC" cuts1 cuts2 = productBuckets cuts1 cuts2
      ∧ add_pair_histograms "PHOSEMC" cuts1 cuts2 = productBuckets cuts1 cuts2)
    ∧ add_pair_histograms "PCMPCM" ["analysis", "qc", "nocut"] ["analysis", "qc", "nocut"]
      = ["analysis_analysis", "qc_qc", "nocut_nocut"]
    ∧ add_pair_histograms "PCMPHOS" ["analysis"] ["test02", "test03"]
      = ["analysis_test02", "analysis_test03"] := by
  refine ⟨fun cuts1 cuts2 => ⟨?_, ?_, ?_, ?_, ?_, ?_⟩, by decide, by decide⟩
  · exact add_pair_sym_eq _ (Or.inl rfl) _ _
  · exact add_pair_sym_eq _ (Or.inr (Or.inl rfl)) _ _
  · exact add_pair_sym_eq _ (Or.inr (Or.inr rfl)) _ _
  · exact add_pair_asym_eq _ (by decide) _ _
  · exact add_pair_asym_eq _ (by decide) _ _
  · exact add_pair_asym_eq _ (by decide) _ _

/-- Claim C6 (amended): `IsSelectedPair` is a pure function of the two
cut verdicts; for the three implemented pair types (PCM-PCM, PHOS-PHOS,
PCM-PHOS) it returns `true` exactly when both candidates pass their
respective cut, but for the EMC-involving pair types it returns `true`
unconditionally, regardless of the cuts. -/
theorem is_selected_pair_rule :
    ∀ (γ₁ γ₂ : Type) (cut1 : γ₁ → Bool) (cut2 : γ₂ → Bool) (g1 : γ₁) (g2 : γ₂),
      IsSelectedPair PairType.kPCMPCM cut1 cut2 g1 g2 = (cut1 g1 && cut2 g2)
      ∧ IsSelectedPair PairType.kPHOSPHOS cut1 cut2 g1 g2 = (cut1 g1 && cut2 g2)
      ∧ IsSelectedPair PairType.kPCMPHOS cut1 cut2 g1 g2 = (cut1 g1 && cut2 g2)
      ∧ IsSelectedPair PairType.kEMCEMC cut1 cut2 g1 g2 = true
      ∧ IsSelectedPair PairType.kPCMEMC cut1 cut2 g1 g2 = true
      ∧ IsSelectedPair PairType.kPHOSEMC cut1 cut2 g1 g2 = true :=
  fun _ _ _ _ _ _ => ⟨rfl, rfl, rfl, rfl, rfl, rfl⟩

/-- Claim C6, counterexample to the claim as stated: for pair type
EMC-EMC the selector answers `true` although neither candidate passes its
cut, so "returns true only if both candidates pass" fails for this pair
type. -/
theorem is_selected_pair_cex :
    IsSelectedPair PairType.kEMCEMC (fun _ : Unit => false) (fun _ : Unit => false) () () = true
    ∧ (fun _ : Unit => false) () = false :=
  ⟨rfl, rfl⟩

/-- Claim C3 (amended): the same-event gate chain, with its stage
counters, applies in the fixed order (readout pre-gate for PHOS-involving
pair types) → seen → `sel8` → contributor count > 0 → `|posZ| ≤ 10`: an
event receives at least one counter fill iff it survives the PHOS readout
pre-gate, at least two iff additionally `sel8` holds, at least three iff
additionally the contributor count is nonzero, and exactly four (i.e. it
is paired) iff additionally `|posZ| ≤ 10` — note the boundary value is
accepted, since the code rejects on `abs(posZ) > 10.0`.  For PCM-PCM the
pre-gate always passes, so every delivered event is counted as seen. -/
theorem same_event_gate_chain :
    ∀ (pt : PairType) (e : EMEvent),
      (1 ≤ sameEventStageCount pt e ↔ phosGate pt e = true)
      ∧ (2 ≤ sameEventStageCount pt e ↔ phosGate pt e = true ∧ e.sel8 = true)
      ∧ (3 ≤ sameEventStageCount pt e ↔
          phosGate pt e = true ∧ e.sel8 = true ∧ e.numContrib ≠ 0)
      ∧ (sameEventStageCount pt e = 4 ↔
          phosGate pt e = true ∧ e.sel8 = true ∧ e.numContrib ≠ 0 ∧ |e.posZ| ≤ 10)
      ∧ phosGate PairType.kPCMPCM e = true := by
  intro pt e
  refine ⟨?_, ?_, ?_, ?_, rfl⟩ <;>
    · unfold sameEventStageCount
      split_ifs with h1 h2 h3 h4 <;> simp_all [not_lt]

/-- Claim C3, counterexample to the claim as stated: this event is
delivered by the event source with `sel8` set, three contributors and a
central vertex, yet for pair type PCM-PHOS it receives zero counter
fills — it is rejected by the PHOS readout gate before the stage-1
"seen" counter is incremented. -/
theorem same_event_seen_cex :
    sameEventStageCount PairType.kPCMPHOS readoutDemoEvent3 = 0
    ∧ readoutDemoEvent3.sel8 = true
    ∧ readoutDemoEvent3.numContrib ≠ 0
    ∧ |readoutDemoEvent3.posZ| ≤ 10 := by decide

/-- Claim C10: with every other gate passing, an event with
`|posZ| = 10.0` is accepted by the same-event gate chain (which rejects
only `|posZ| > 10.0`) but excluded from the mixing pool (whose filter
requires `|posZ| < 10.0`); and under those side conditions the two gates
disagree exactly on the boundary value. -/
theorem boundary_z_gate :
    ∀ (pt : PairType) (e : EMEvent),
      phosGate pt e = true → e.sel8 = true → e.numContrib ≠ 0 →
      (|e.posZ| = 10 → sameEventAccepted pt e = true ∧ collisionFilter_common e = false)
      ∧ ((sameEventAccepted pt e ≠ collisionFilter_common e) ↔ |e.posZ| = 10) := by
  intro pt e hp hs hc
  have hacc : sameEventAccepted pt e = decide (|e.posZ| ≤ 10) := by
    unfold sameEventAccepted sameEventStageCount
    rcases lt_or_le 10 (|e.posZ|) with hz | hz
    · simp [hp, hs, hc, hz, not_le.mpr hz]
    · simp [hp, hs, hc, not_lt.mpr hz, hz]
  have hfil : collisionFilter_common e = decide (|e.posZ| < 10) := by
    unfold collisionFilter_common
    simp [hs, Nat.pos_of_ne_zero hc]
  constructor
  · intro hz
    rw [hacc, hfil, hz]
    simp
  · rw [hacc, hfil]
    rcases lt_trichotomy (|e.posZ|) 10 with h | h | h
    · simp [le_of_lt h, h, ne_of_lt h]
    · simp [h]
    · simp [not_le.mpr h, not_lt.mpr (le_of_lt h), ne_of_gt h]

/-- Claim C10, witness at the boundary event. -/
theorem boundary_z_gate_witness :
    sameEventAccepted PairType.kPCMPCM boundaryDemoEvent = true
    ∧ collisionFilter_common boundaryDemoEvent = false :=
  (boundary_z_gate PairType.kPCMPCM boundaryDemoEvent (by decide) (by decide)
    (by decide)).1 (by decide)

/-- Claim C2 (amended): the mixed-event pairing gates depend only on the
per-pairtype candidate counts — neither the loop's gates nor the pool
filters nor the mixing-bin assignment read the PHOS readout-availability
flag, for any pair type; the readout gate is applied only in same-event
pairing, where an event with the flag down is dropped (zero counter
fills) for the PHOS-involving pair types. -/
theorem mixer_readout_rule :
    (∀ (pt : PairType) (b1 b2 : Bool) (c1 c2 : EMEvent),
      mixGatePass pt (setReadout b1 c1) (setReadout b2 c2) = mixGatePass pt c1 c2)
    ∧ (∀ (b : Bool) (e : EMEvent),
      collisionFilter_common (setReadout b e) = collisionFilter_common e)
    ∧ (∀ (b : Bool) (e : EMEvent),
      collisionFilter_subsys (setReadout b e) = collisionFilter_subsys e)
    ∧ (∀ (b : Bool) (e : EMEvent), colBin (setReadout b e) = colBin e)
    ∧ (∀ e : EMEvent, sameEventStageCount PairType.kPCMPHOS (setReadout false e) = 0)
    ∧ (∀ e : EMEvent, sameEventStageCount PairType.kPHOSPHOS (setReadout false e) = 0) :=
  ⟨fun _ _ _ _ _ => rfl, fun _ _ => rfl, fun _ _ => rfl, fun _ _ => rfl,
    fun _ => rfl, fun _ => rfl⟩

/-- Claim C2, counterexample to the claim as stated: two mixing-pool
events whose PHOS readout flag is down are still paired by the mixer for
the cross-subsystem pair type PCM-PHOS — their event pair survives every
mixer gate and reaches the photon-pair fills, so no companion
event-quality gate is checked before mixed-event pairing. -/
theorem mixer_readout_cex :
    mixProcessed PairType.kPCMPHOS 10 [readoutDemoEvent1, readoutDemoEvent2]
      = [(readoutDemoEvent1, readoutDemoEvent2)]
    ∧ readoutDemoEvent1.isPHOSCPVreadout = false
    ∧ readoutDemoEvent2.isPHOSCPVreadout = false := by decide

lemma v4_add_comm (v1 v2 : V4) : V4.add v2 v1 = V4.add v1 v2 := by
  unfold V4.add
  ext <;> ring

lemma rootM_congr {a b : V4} (h : a.m2 = b.m2) : rootM a = rootM b := by
  unfold rootM
  rw [h]

lemma m2_sub_swap (v1 v2 : V4) : (V4.sub v2 v1).m2 = (V4.sub v1 v2).m2 := by
  unfold V4.sub V4.m2
  ring

/-- Claim C8: swapping which candidate is first leaves the kinematic
transform invariant up to a fixed sign convention: `qlong`, `qout` and
`qside` flip sign, while `qinv` and `kt` are unchanged (the set of
sign-flipped components is exactly these three: `qinv = −q12.M()` depends
only on the squared components of the difference vector, so it does not
flip). -/
theorem hbt_swap_rule :
    ∀ (pt1 eta1 phi1 pt2 eta2 phi2 : ℝ),
      hbtTransform (ptEtaPhiM0 pt2 eta2 phi2) (ptEtaPhiM0 pt1 eta1 phi1)
        = { qinv := (hbtTransform (ptEtaPhiM0 pt1 eta1 phi1) (ptEtaPhiM0 pt2 eta2 phi2)).qinv
            qlong := -(hbtTransform (ptEtaPhiM0 pt1 eta1 phi1) (ptEtaPhiM0 pt2 eta2 phi2)).qlong
            qout := -(hbtTransform (ptEtaPhiM0 pt1 eta1 phi1) (ptEtaPhiM0 pt2 eta2 phi2)).qout
            qside := -(hbtTransform (ptEtaPhiM0 pt1 eta1 phi1) (ptEtaPhiM0 pt2 eta2 phi2)).qside
            kt := (hbtTransform (ptEtaPhiM0 pt1 eta1 phi1) (ptEtaPhiM0 pt2 eta2 phi2)).kt } := by
  intro pt1 eta1 phi1 pt2 eta2 phi2
  set v1 := ptEtaPhiM0 pt1 eta1 phi1
  set v2 := ptEtaPhiM0 pt2 eta2 phi2
  have hk : V4.add v2 v1 = V4.add v1 v2 := v4_add_comm v1 v2
  have hkk : k12 v2 v1 = k12 v1 v2 := by unfold k12; rw [hk]
  have huv : uvOut v2 v1 = uvOut v1 v2 := by unfold uvOut; rw [hkk]
  have huvs : uvSide v2 v1 = uvSide v1 v2 := by unfold uvSide; rw [huv]
  simp only [hbtTransform, HBTValues.mk.injEq]
  refine ⟨?_, ?_, ?_, ?_, ?_⟩
  · exact congrArg Neg.neg (rootM_congr (m2_sub_swap v1 v2))
  · simp only [q12, V4.sub, V4.vect, V3.dot, uvLong]
    ring
  · rw [huv]
    simp only [q12, V4.sub, V4.vect, V3.dot]
    ring
  · rw [huvs]
    simp only [q12, V4.sub, V4.vect, V3.dot]
    ring
  · rw [hkk]

/-- Claim C7: a pair of candidates with identical `(pt, eta, phi)` yields
`qinv = 0`, `qlong = qout = qside = 0` and `kt` equal to the common
transverse momentum. -/
theorem hbt_identical_rule :
    ∀ (pt eta phi : ℝ), 0 ≤ pt →
      hbtTransform (ptEtaPhiM0 pt eta phi) (ptEtaPhiM0 pt eta phi)
        = { qinv := 0, qlong := 0, qout := 0, qside := 0, kt := pt } := by
  intro pt eta phi hpt
  set v := ptEtaPhiM0 pt eta phi with hv
  have hq : q12 v v = ⟨0, 0, 0, 0⟩ := by
    unfold q12 V4.sub
    ext <;> simp
  have hk : k12 v v = v := by
    unfold k12 V4.add V4.smul
    ext <;> (simp only []; ring)
  simp only [hbtTransform, HBTValues.mk.injEq]
  refine ⟨?_, ?_, ?_, ?_, ?_⟩
  · rw [hq]
    norm_num [rootM, V4.m2, Real.sqrt_zero]
  · rw [hq]
    simp [V4.vect, V3.dot, uvLong]
  · rw [hq]
    simp [V4.vect, V3.dot]
  · rw [hq]
    simp [V4.vect, V3.dot]
  · rw [hk, hv]
    unfold ptEtaPhiM0 V4.Pt
    have hsum : (pt * Real.cos phi) ^ 2 + (pt * Real.sin phi) ^ 2 = pt ^ 2 := by
      calc (pt * Real.cos phi) ^ 2 + (pt * Real.sin phi) ^ 2
          = pt ^ 2 * (Real.sin phi ^ 2 + Real.cos phi ^ 2) := by ring
        _ = pt ^ 2 := by rw [Real.sin_sq_add_cos_sq]; ring
    simp only [hsum]
    exact Real.sqrt_sq hpt

/-- Claim C7, witness at `(pt, eta, phi) = (1, 0, 0)`. -/
theorem hbt_identical_witness :
    (0 : ℝ) ≤ 1
    ∧ hbtTransform (ptEtaPhiM0 1 0 0) (ptEtaPhiM0 1 0 0)
      = { qinv := 0, qlong := 0, qout := 0, qside := 0, kt := 1 } :=
  ⟨by norm_num, hbt_identical_rule 1 0 0 (by norm_num)⟩

/-- Claim C9: the checked transform, in which the single division of the
reference (`k12.Vect() / k12.P()`, producing the "out" unit vector) is
guarded, succeeds — returning exactly the reference's output — precisely
when `k12.P() ≠ 0`; and that precondition fails exactly when the pair's
half-sum spatial momentum is the zero vector.  The reference itself has
no guard: on the degenerate inputs the division is reached, and on all
other inputs every operation is well defined. -/
theorem hbt_division_rule :
    ∀ v1 v2 : V4,
      (hbtTransformChecked v1 v2 = some (hbtTransform v1 v2) ↔ (k12 v1 v2).P ≠ 0)
      ∧ ((k12 v1 v2).P = 0 ↔ (k12 v1 v2).vect = ⟨0, 0, 0⟩) := by
  intro v1 v2
  constructor
  · unfold hbtTransformChecked
    by_cases h : (k12 v1 v2).P = 0
    · simp [h]
    · simp [h]
  · unfold V4.P V4.vect
    constructor
    · intro h
      have hnn : 0 ≤ (k12 v1 v2).px ^ 2 + (k12 v1 v2).py ^ 2 + (k12 v1 v2).pz ^ 2 := by
        positivity
      have hs : (k12 v1 v2).px ^ 2 + (k12 v1 v2).py ^ 2 + (k12 v1 v2).pz ^ 2 = 0 :=
        le_antisymm (Real.sqrt_eq_zero'.mp h) hnn
      have hx : (k12 v1 v2).px = 0 := by nlinarith [sq_nonneg (k12 v1 v2).px, sq_nonneg (k12 v1 v2).py, sq_nonneg (k12 v1 v2).pz]
      have hy : (k12 v1 v2).py = 0 := by nlinarith [sq_nonneg (k12 v1 v2).px, sq_nonneg (k12 v1 v2).py, sq_nonneg (k12 v1 v2).pz]
      have hz : (k12 v1 v2).pz = 0 := by nlinarith [sq_nonneg (k12 v1 v2).px, sq_nonneg (k12 v1 v2).py, sq_nonneg (k12 v1 v2).pz]
      ext <;> simp [hx, hy, hz]
    · intro h
      have hx : (k12 v1 v2).px = 0 := congrArg V3.x h
      have hy : (k12 v1 v2).py = 0 := congrArg V3.y h
      have hz : (k12 v1 v2).pz = 0 := congrArg V3.z h
      rw [hx, hy, hz]
      simp

lemma countAnchor_append (a : ℤ) (l1 l2 : List (EMEvent × EMEvent)) :
    countAnchor a (l1 ++ l2) = countAnchor a l1 + countAnchor a l2 :=
  List.countP_append _ _ _

lemma countAnchor_eq_zero {a : ℤ} {l : List (EMEvent × EMEvent)}
    (h : ∀ p ∈ l, p.1.collisionId ≠ a) : countAnchor a l = 0 := by
  unfold countAnchor
  refine List.countP_eq_zero.mpr fun p hp => ?_
  simpa using h p hp

lemma mixLoop_append (pt : PairType) (nd : ℤ) :
    ∀ (xs ys : List (EMEvent × EMEvent)) (st : ℤ × ℤ),
      mixLoop pt nd (xs ++ ys) st
        = mixLoop pt nd xs st ++ mixLoop pt nd ys (List.foldl (mixStep pt nd) st xs) := by
  intro xs
  induction xs with
  | nil => intro ys st; simp [mixLoop]
  | cons c rest ih =>
    intro ys st
    show (if mixKeep pt nd st c = true then [c] else [])
        ++ mixLoop pt nd (rest ++ ys) (mixStep pt nd st c) = _
    rw [ih, List.foldl_cons]
    show _ = (if mixKeep pt nd st c = true then [c] else [])
        ++ mixLoop pt nd rest (mixStep pt nd st c)
        ++ mixLoop pt nd ys (List.foldl (mixStep pt nd) (mixStep pt nd st c) rest)
    rw [List.append_assoc]

lemma mixLoop_subset (pt : PairType) (nd : ℤ) :
    ∀ (l : List (EMEvent × EMEvent)) (st : ℤ × ℤ),
      ∀ p ∈ mixLoop pt nd l st, p ∈ l := by
  intro l
  induction l with
  | nil => intro st p hp; simp [mixLoop] at hp
  | cons c rest ih =>
    intro st p hp
    simp only [mixLoop, List.mem_append] at hp
    rcases hp with hp | hp
    · by_cases hk : mixKeep pt nd st c = true
      · simp only [hk, if_true, List.mem_singleton] at hp
        exact hp ▸ List.mem_cons_self c rest
      · simp [hk] at hp
    · exact List.mem_cons_of_mem c (ih _ p hp)

lemma foldl_mixStep_fst (pt : PairType) (nd : ℤ) :
    ∀ (xs : List (EMEvent × EMEvent)) (st : ℤ × ℤ),
      (List.foldl (mixStep pt nd) st xs).1 = st.1
        ∨ (List.foldl (mixStep pt nd) st xs).1 ∈ xs.map (fun c => c.1.collisionId) := by
  intro xs
  induction xs with
  | nil => intro st; left; rfl
  | cons c rest ih =>
    intro st
    rw [List.foldl_cons, List.map_cons]
    rcases ih (mixStep pt nd st c) with h | h
    · right
      rw [h]
      exact List.mem_cons_self _ _
    · right
      exact List.mem_cons_of_mem _ h

lemma run_count (pt : PairType) (nd : ℤ) (a : EMEvent) :
    ∀ (ps : List EMEvent) (nev : ℤ),
      (countAnchor a.collisionId
          (mixLoop pt nd (ps.map (fun p => (a, p))) (a.collisionId, nev)) : ℤ)
        ≤ max (nd + 1 - nev) 0 := by
  intro ps
  induction ps with
  | nil =>
    intro nev
    simp only [List.map_nil, mixLoop, countAnchor, List.countP_nil]
    exact le_max_right _ 0
  | cons p ps ih =>
    intro nev
    simp only [List.map_cons, mixLoop]
    have hnev : mixNev0 (a.collisionId, nev) (a, p) = nev := by simp [mixNev0]
    by_cases hd : nd < nev
    · have hk : mixKeep pt nd (a.collisionId, nev) (a, p) = false := by
        simp [mixKeep, hnev, hd]
      have hstep : mixStep pt nd (a.collisionId, nev) (a, p) = (a.collisionId, nev) := by
        simp [mixStep, hk, hnev]
      rw [hk, hstep]
      simpa using ih nev
    · by_cases hg : mixGatePass pt a p = true
      · have hk : mixKeep pt nd (a.collisionId, nev) (a, p) = true := by
          simp [mixKeep, hnev, hd, hg]
        have hstep : mixStep pt nd (a.collisionId, nev) (a, p) = (a.collisionId, nev + 1) := by
          simp [mixStep, hk, hnev]
        rw [hk, hstep]
        have hcnt : countAnchor a.collisionId
            ((a, p) :: mixLoop pt nd (ps.map (fun p => (a, p))) (a.collisionId, nev + 1))
            = countAnchor a.collisionId
                (mixLoop pt nd (ps.map (fun p => (a, p))) (a.collisionId, nev + 1)) + 1 := by
          unfold countAnchor
          rw [List.countP_cons_of_pos]
          simp
        simp only [if_true, List.singleton_append, hcnt]
        have := ih (nev + 1)
        push_cast
        push_cast at this
        omega
      · have hk : mixKeep pt nd (a.collisionId, nev) (a, p) = false := by
          simp [mixKeep, hnev, hd, hg]
        have hstep : mixStep pt nd (a.collisionId, nev) (a, p) = (a.collisionId, nev) := by
          simp [mixStep, hk, hnev]
        rw [hk, hstep]
        simpa using ih nev

lemma run_count_entry (pt : PairType) (nd : ℤ) (a : EMEvent) (hnd : 0 ≤ nd) :
    ∀ (ps : List EMEvent) (idx nev : ℤ), idx ≠ a.collisionId →
      (countAnchor a.collisionId
          (mixLoop pt nd (ps.map (fun p => (a, p))) (idx, nev)) : ℤ) ≤ nd + 1 := by
  intro ps idx nev hidx
  cases ps with
  | nil =>
    simp only [List.map_nil, mixLoop, countAnchor, List.countP_nil]
    omega
  | cons p ps =>
    simp only [List.map_cons, mixLoop]
    have hnev : mixNev0 (idx, nev) (a, p) = 0 := by simp [mixNev0, hidx]
    have hd : ¬(nd < (0 : ℤ)) := not_lt.mpr hnd
    by_cases hg : mixGatePass pt a p = true
    · have hk : mixKeep pt nd (idx, nev) (a, p) = true := by
        simp [mixKeep, hnev, hd, hg]
      have hstep : mixStep pt nd (idx, nev) (a, p) = (a.collisionId, 1) := by
        simp [mixStep, hk, hnev]
      rw [hk, hstep]
      have hcnt : countAnchor a.collisionId
          ((a, p) :: mixLoop pt nd (ps.map (fun p => (a, p))) (a.collisionId, 1))
          = countAnchor a.collisionId
              (mixLoop pt nd (ps.map (fun p => (a, p))) (a.collisionId, 1)) + 1 := by
        unfold countAnchor
        rw [List.countP_cons_of_pos]
        simp
      simp only [if_true, List.singleton_append, hcnt]
      have := run_count pt nd a ps 1
      push_cast
      push_cast at this
      omega
    · have hk : mixKeep pt nd (idx, nev) (a, p) = false := by
        simp [mixKeep, hnev, hd, hg]
      have hstep : mixStep pt nd (idx, nev) (a, p) = (a.collisionId, 0) := by
        simp [mixStep, hk, hnev]
      rw [hk, hstep, if_neg Bool.false_ne_true, List.nil_append]
      have := run_count pt nd a ps 0
      omega

lemma flattenRuns_anchor_mem :
    ∀ (rs : List (EMEvent × List EMEvent)) (p : EMEvent × EMEvent),
      p ∈ flattenRuns rs → p.1.collisionId ∈ runAnchors rs := by
  intro rs
  induction rs with
  | nil => intro p hp; simp [flattenRuns] at hp
  | cons r rest ih =>
    intro p hp
    simp only [flattenRuns, List.mem_append] at hp
    rcases hp with hp | hp
    · rcases List.mem_map.mp hp with ⟨q, _, hq⟩
      rw [← hq]
      exact List.mem_cons_self _ _
    · exact List.mem_cons_of_mem _ (ih p hp)

lemma runs_count_bound (pt : PairType) (nd : ℤ) (hnd : 0 ≤ nd) :
    ∀ (runs : List (EMEvent × List EMEvent)) (st : ℤ × ℤ),
      (runAnchors runs).Nodup →
      (∀ r ∈ runs, st.1 ≠ r.1.collisionId) →
      ∀ a : ℤ, (countAnchor a (mixLoop pt nd (flattenRuns runs) st) : ℤ) ≤ nd + 1 := by
  intro runs
  induction runs with
  | nil =>
    intro st _ _ a
    simp only [flattenRuns, mixLoop, countAnchor, List.countP_nil]
    omega
  | cons r rest ih =>
    intro st hnodup hst a
    have hflat : flattenRuns (r :: rest) = r.2.map (fun p => (r.1, p)) ++ flattenRuns rest := rfl
    rw [hflat, mixLoop_append, countAnchor_append]
    have hconsanch : runAnchors (r :: rest) = r.1.collisionId :: runAnchors rest := rfl
    rw [hconsanch] at hnodup
    have hheadnotin : r.1.collisionId ∉ runAnchors rest := (List.nodup_cons.mp hnodup).1
    by_cases ha : a = r.1.collisionId
    · have h1 : (countAnchor a (mixLoop pt nd (r.2.map (fun p => (r.1, p))) st) : ℤ)
          ≤ nd + 1 := by
        rw [ha]
        exact run_count_entry pt nd r.1 hnd r.2 st.1 st.2
          (hst r (List.mem_cons_self _ _))
      have h2 : countAnchor a
          (mixLoop pt nd (flattenRuns rest)
            (List.foldl (mixStep pt nd) st (r.2.map (fun p => (r.1, p))))) = 0 := by
        refine countAnchor_eq_zero fun p hp => ?_
        have hmem : p ∈ flattenRuns rest := mixLoop_subset pt nd _ _ p hp
        have := flattenRuns_anchor_mem rest p hmem
        intro hcontra
        rw [hcontra, ha] at this
        exact hheadnotin this
      omega
    · have h1 : countAnchor a (mixLoop pt nd (r.2.map (fun p => (r.1, p))) st) = 0 := by
        refine countAnchor_eq_zero fun p hp => ?_
        have hmem : p ∈ r.2.map (fun p => (r.1, p)) := mixLoop_subset pt nd _ _ p hp
        rcases List.mem_map.mp hmem with ⟨q, _, hq⟩
        rw [← hq]
        exact fun hcontra => ha hcontra.symm
      have h2 : (countAnchor a
          (mixLoop pt nd (flattenRuns rest)
            (List.foldl (mixStep pt nd) st (r.2.map (fun p => (r.1, p))))) : ℤ)
          ≤ nd + 1 := by
        refine ih _ (List.nodup_cons.mp hnodup).2 ?_ a
        intro r' hr'
        rcases foldl_mixStep_fst pt nd (r.2.map (fun p => (r.1, p))) st with h | h
        · rw [h]
          exact hst r' (List.mem_cons_of_mem _ hr')
        · have hall : ∀ z ∈ (r.2.map (fun p => (r.1, p))).map (fun c => c.1.collisionId),
              z = r.1.collisionId := by
            intro z hz
            rcases List.mem_map.mp hz with ⟨c, hc, hcz⟩
            rcases List.mem_map.mp hc with ⟨q, _, hq⟩
            rw [← hcz, ← hq]
          rw [hall _ h]
          intro hcontra
          exact hheadnotin (hcontra ▸ List.mem_map_of_mem (fun x => x.1.collisionId) hr')
      omega

lemma groupsByAux_congr (key : EMEvent → Option (ℕ × ℕ)) :
    ∀ (fuel1 fuel2 : ℕ) (l : List EMEvent), l.length ≤ fuel1 → l.length ≤ fuel2 →
      groupsByAux key fuel1 l = groupsByAux key fuel2 l := by
  intro fuel1
  induction fuel1 with
  | zero =>
    intro fuel2 l h1 _
    have : l = [] := List.length_eq_zero.mp (Nat.le_zero.mp h1)
    subst this
    cases fuel2 <;> rfl
  | succ n ih =>
    intro fuel2 l h1 h2
    cases l with
    | nil => cases fuel2 <;> rfl
    | cons x xs =>
      cases fuel2 with
      | zero => exact absurd h2 (by simp)
      | succ m =>
        show (x :: xs.filter _) :: groupsByAux key n (xs.filter _)
          = (x :: xs.filter _) :: groupsByAux key m (xs.filter _)
        refine congrArg _ (ih m _ ?_ ?_)
        · exact le_trans (List.length_filter_le _ _) (by simpa using h1)
        · exact le_trans (List.length_filter_le _ _) (by simpa using h2)

lemma groupsBy_cons (key : EMEvent → Option (ℕ × ℕ)) (x : EMEvent) (xs : List EMEvent) :
    groupsBy key (x :: xs)
      = (x :: xs.filter (fun y => decide (key y = key x)))
        :: groupsBy key (xs.filter (fun y => !(decide (key y = key x)))) := by
  show groupsByAux key (xs.length + 1) (x :: xs) = _
  show (x :: xs.filter _) :: groupsByAux key xs.length (xs.filter _) = _
  unfold groupsBy
  exact congrArg _ (groupsByAux_congr key xs.length _ _
    (List.length_filter_le _ _) le_rfl)

lemma joinGroups_groupsBy_perm (key : EMEvent → Option (ℕ × ℕ)) :
    ∀ (n : ℕ) (l : List EMEvent), l.length ≤ n →
      (joinGroups (groupsBy key l)).Perm l := by
  intro n
  induction n with
  | zero =>
    intro l hl
    have : l = [] := List.length_eq_zero.mp (Nat.le_zero.mp hl)
    subst this
    exact List.Perm.refl _
  | succ n ih =>
    intro l hl
    cases l with
    | nil => exact List.Perm.refl _
    | cons x xs =>
      rw [groupsBy_cons]
      show ((x :: xs.filter _) ++ joinGroups (groupsBy key (xs.filter _))).Perm (x :: xs)
      rw [List.cons_append]
      refine List.Perm.cons x ?_
      have h1 : (joinGroups (groupsBy key
          (xs.filter (fun y => !(decide (key y = key x)))))).Perm
          (xs.filter (fun y => !(decide (key y = key x)))) := by
        refine ih _ (le_trans (List.length_filter_le _ _) ?_)
        simpa using hl
      refine ((List.Perm.append_left _ h1).trans ?_)
      exact List.filter_append_perm _ xs

lemma joinGroups_perm (key : EMEvent → Option (ℕ × ℕ)) (l : List EMEvent) :
    (joinGroups (groupsBy key l)).Perm l :=
  joinGroups_groupsBy_perm key l.length l le_rfl

lemma runAnchors_append (rs1 rs2 : List (EMEvent × List EMEvent)) :
    runAnchors (rs1 ++ rs2) = runAnchors rs1 ++ runAnchors rs2 :=
  List.map_append _ _ _

lemma runAnchors_supRuns (w : ℕ) :
    ∀ g : List EMEvent, runAnchors (supRuns w g) = g.map EMEvent.collisionId := by
  intro g
  induction g with
  | nil => rfl
  | cons x xs ih =>
    show x.collisionId :: runAnchors (supRuns w xs) = _
    rw [ih]
    rfl

lemma runAnchors_binRuns (w : ℕ) :
    ∀ gs : List (List EMEvent),
      runAnchors (binRuns w gs) = (joinGroups gs).map EMEvent.collisionId := by
  intro gs
  induction gs with
  | nil => rfl
  | cons g gs ih =>
    show runAnchors (supRuns w g ++ binRuns w gs) = (g ++ joinGroups gs).map _
    rw [runAnchors_append, runAnchors_supRuns, ih, List.map_append]

/-- Claim C1 (amended): the per-anchor depth counter bounds the number of
processed partner pairs by `ndepth + 1`, not `ndepth`: a pair is processed
while `nev ≤ ndepth` (the code skips only when `nev > ndepth`) and `nev`
is incremented once per processed pair, so an anchor with enough same-bin
partners is paired with up to `ndepth + 1 = 11` distinct partner events
(for the configured depth 10) before the remaining partners are skipped. -/
theorem mixing_depth_rule (pt : PairType) (nd : ℤ) (evs : List EMEvent)
    (hnd : 0 ≤ nd)
    (hids : (evs.map EMEvent.collisionId).Nodup)
    (hpos : ∀ e ∈ evs, 0 ≤ e.collisionId) :
    ∀ a : ℤ, (countAnchor a (mixProcessed pt nd evs) : ℤ) ≤ nd + 1 := by
  intro a
  set l2 := (evs.filter (fun e => collisionFilter_common e && collisionFilter_subsys e)).filter
      (fun e => (colBin e).isSome) with hl2
  have hsub : l2.Sublist evs :=
    (List.filter_sublist _).trans (List.filter_sublist _)
  have hids2 : (l2.map EMEvent.collisionId).Nodup := (hsub.map _).nodup hids
  have hperm : (joinGroups (groupsBy colBin l2)).Perm l2 := joinGroups_perm colBin l2
  have hanch : runAnchors (binRuns 1000 (groupsBy colBin l2))
      = (joinGroups (groupsBy colBin l2)).map EMEvent.collisionId := runAnchors_binRuns _ _
  have hnodupanch : (runAnchors (binRuns 1000 (groupsBy colBin l2))).Nodup := by
    rw [hanch]
    exact ((hperm.map EMEvent.collisionId).nodup_iff).mpr hids2
  have hstinit : ∀ r ∈ binRuns 1000 (groupsBy colBin l2),
      ((-999 : ℤ), (0 : ℤ)).1 ≠ r.1.collisionId := by
    intro r hr
    have h1 : r.1.collisionId ∈ runAnchors (binRuns 1000 (groupsBy colBin l2)) :=
      List.mem_map_of_mem _ hr
    rw [hanch] at h1
    rcases List.mem_map.mp h1 with ⟨e, he, hid⟩
    have he3 : e ∈ evs := hsub.subset (hperm.mem_iff.mp he)
    have hp := hpos e he3
    intro hcontra
    rw [← hid] at hcontra
    omega
  have hrw : mixProcessed pt nd evs
      = mixLoop pt nd (flattenRuns (binRuns 1000 (groupsBy colBin l2))) (-999, 0) := rfl
  rw [hrw]
  exact runs_count_bound pt nd hnd (binRuns 1000 (groupsBy colBin l2)) (-999, 0)
    hnodupanch hstinit a

/-- Claim C1, witness: the depth bound applied to the demonstration pool. -/
theorem mixing_depth_rule_witness :
    (countAnchor 0 (mixProcessed PairType.kPCMPCM 10 mixDemoEvents) : ℤ) ≤ 10 + 1 :=
  mixing_depth_rule PairType.kPCMPCM 10 mixDemoEvents (by decide) (by decide)
    (by decide) 0

/-- Claim C1, counterexample to the claim as stated: in a pool where the
anchor event (id 0) has 15 same-bin partner events and the configured
depth is 10, the code processes 11 distinct partner events (ids 1 … 11)
for that anchor — more than the claimed bound of 10. -/
theorem mixing_depth_cex :
    countAnchor 0 (mixProcessed PairType.kPCMPCM 10 mixDemoEvents) = 11
    ∧ ((mixProcessed PairType.kPCMPCM 10 mixDemoEvents).filter
        (fun p => decide (p.1.collisionId = 0))).map (fun p => p.2.collisionId)
      = [1, 2, 3, 4, 5, 6, 7, 8, 9, 10, 11] := by
  refine ⟨by decide, by decide⟩

lemma flattenRuns_append :
    ∀ rs1 rs2 : List (EMEvent × List EMEvent),
      flattenRuns (rs1 ++ rs2) = flattenRuns rs1 ++ flattenRuns rs2 := by
  intro rs1 rs2
  induction rs1 with
  | nil => rfl
  | cons r rest ih =>
    show r.2.map _ ++ flattenRuns (rest ++ rs2) = r.2.map _ ++ flattenRuns rest ++ _
    rw [ih, List.append_assoc]

lemma strictlyUpperPairs_mem_concat {α : Type} :
    ∀ (l : List α) (a : α) (p : α × α),
      p ∈ strictlyUpperPairs (l ++ [a])
        ↔ p ∈ strictlyUpperPairs l ∨ (p.1 ∈ l ∧ p.2 = a) := by
  intro l a
  induction l with
  | nil =>
    intro p
    simp [strictlyUpperPairs]
  | cons x xs ih =>
    intro p
    have h1 : strictlyUpperPairs ((x :: xs) ++ [a])
        = (xs ++ [a]).map (fun y => (x, y)) ++ strictlyUpperPairs (xs ++ [a]) := rfl
    rw [h1, List.map_append]
    have h2 : strictlyUpperPairs (x :: xs)
        = xs.map (fun y => (x, y)) ++ strictlyUpperPairs xs := rfl
    rw [h2]
    simp only [List.mem_append, List.map_singleton, List.mem_singleton, List.mem_cons,
      Prod.ext_iff, ih p]
    tauto

lemma strictlyUpperPairs_comp {α : Type} :
    ∀ (l : List α) (p : α × α), p ∈ strictlyUpperPairs l → p.1 ∈ l ∧ p.2 ∈ l := by
  intro l
  induction l with
  | nil => intro p hp; simp [strictlyUpperPairs] at hp
  | cons x xs ih =>
    intro p hp
    have h2 : strictlyUpperPairs (x :: xs)
        = xs.map (fun y => (x, y)) ++ strictlyUpperPairs xs := rfl
    rw [h2] at hp
    rcases List.mem_append.mp hp with hp | hp
    · rcases List.mem_map.mp hp with ⟨y, hy, hyeq⟩
      rw [← hyeq]
      exact ⟨List.mem_cons_self _ _, List.mem_cons_of_mem _ hy⟩
    · exact ⟨List.mem_cons_of_mem _ (ih p hp).1, List.mem_cons_of_mem _ (ih p hp).2⟩

lemma strictlyUpperPairs_nodup {α : Type} :
    ∀ l : List α, l.Nodup → (strictlyUpperPairs l).Nodup := by
  intro l
  induction l with
  | nil => intro _; simp [strictlyUpperPairs]
  | cons x xs ih =>
    intro hnd
    have hx : x ∉ xs := (List.nodup_cons.mp hnd).1
    have hxs : xs.Nodup := (List.nodup_cons.mp hnd).2
    show (xs.map (fun y => (x, y)) ++ strictlyUpperPairs xs).Nodup
    refine List.Nodup.append ?_ (ih hxs) ?_
    · exact List.Nodup.map (fun a b hab => by simpa using congrArg Prod.snd hab) hxs
    · intro p hp1 hp2
      rcases List.mem_map.mp hp1 with ⟨y, _, hy⟩
      have hcomp := (strictlyUpperPairs_comp xs p hp2).1
      rw [← hy] at hcomp
      exact hx hcomp

lemma mem_strictlyUpperIdx :
    ∀ (n i j : ℕ), (i, j) ∈ strictlyUpperIdx n ↔ i < j ∧ j < n := by
  intro n
  induction n with
  | zero => intro i j; simp [strictlyUpperIdx, strictlyUpperPairs]
  | succ n ih =>
    intro i j
    unfold strictlyUpperIdx at *
    rw [List.range_succ, strictlyUpperPairs_mem_concat, ih i j]
    simp only [List.mem_range]
    omega

lemma supRuns_pairs_distinct (w : ℕ) :
    ∀ (g : List EMEvent), (g.map EMEvent.collisionId).Nodup →
      ∀ p ∈ flattenRuns (supRuns w g), p.1.collisionId ≠ p.2.collisionId := by
  intro g
  induction g with
  | nil => intro _ p hp; simp [supRuns, flattenRuns] at hp
  | cons x xs ih =>
    intro hnd p hp
    rw [List.map_cons] at hnd
    have hflat : flattenRuns (supRuns w (x :: xs))
        = (xs.take w).map (fun p => (x, p)) ++ flattenRuns (supRuns w xs) := rfl
    rw [hflat] at hp
    rcases List.mem_append.mp hp with hp | hp
    · rcases List.mem_map.mp hp with ⟨y, hy, hyeq⟩
      have hyxs : y ∈ xs := (List.take_sublist w xs).subset hy
      rw [← hyeq]
      intro hcontra
      exact (List.nodup_cons.mp hnd).1 (hcontra ▸ List.mem_map_of_mem _ hyxs)
    · exact ih (List.nodup_cons.mp hnd).2 p hp

lemma binRuns_pairs_distinct (w : ℕ) :
    ∀ (gs : List (List EMEvent)),
      (∀ g ∈ gs, (g.map EMEvent.collisionId).Nodup) →
      ∀ p ∈ flattenRuns (binRuns w gs), p.1.collisionId ≠ p.2.collisionId := by
  intro gs
  induction gs with
  | nil => intro _ p hp; simp [binRuns, flattenRuns] at hp
  | cons g gs ih =>
    intro hall p hp
    have hsplit : flattenRuns (binRuns w (g :: gs))
        = flattenRuns (supRuns w g) ++ flattenRuns (binRuns w gs) := by
      show flattenRuns (supRuns w g ++ binRuns w gs) = _
      exact flattenRuns_append _ _
    rw [hsplit] at hp
    rcases List.mem_append.mp hp with hp | hp
    · exact supRuns_pairs_distinct w g (hall g (List.mem_cons_self _ _)) p hp
    · exact ih (fun g' hg' => hall g' (List.mem_cons_of_mem _ hg')) p hp

lemma group_sublist_join :
    ∀ (gs : List (List EMEvent)) (g : List EMEvent), g ∈ gs → g.Sublist (joinGroups gs) := by
  intro gs
  induction gs with
  | nil => intro g hg; simp at hg
  | cons g0 gs ih =>
    intro g hg
    rcases List.mem_cons.mp hg with rfl | hg
    · exact List.sublist_append_left _ _
    · exact (ih g hg).trans (List.sublist_append_right _ _)

/-- Claim C4: the symmetric same-event branch enumerates exactly the
strictly-upper index pairs `i < j < n` of the sliced candidate list, with
no duplicates — so no filled pair has `g1 == g2` and each unordered
candidate pair occurs exactly once (the membership characterisation rules
out `(j, i)` whenever `(i, j)` is enumerated); and every mixed-event pair
that reaches the fills draws its two events from distinct collision ids. -/
theorem pair_distinct_rule :
    (∀ n i j : ℕ, (i, j) ∈ strictlyUpperIdx n ↔ i < j ∧ j < n)
    ∧ (∀ n : ℕ, (strictlyUpperIdx n).Nodup)
    ∧ (∀ (pt : PairType) (nd : ℤ) (evs : List EMEvent),
        (evs.map EMEvent.collisionId).Nodup →
        ∀ p ∈ mixProcessed pt nd evs, p.1.collisionId ≠ p.2.collisionId) := by
  refine ⟨mem_strictlyUpperIdx, fun n => strictlyUpperPairs_nodup _ (List.nodup_range n), ?_⟩
  intro pt nd evs hids p hp
  set l2 := (evs.filter (fun e => collisionFilter_common e && collisionFilter_subsys e)).filter
      (fun e => (colBin e).isSome) with hl2
  have hsub : l2.Sublist evs :=
    (List.filter_sublist _).trans (List.filter_sublist _)
  have hids2 : (l2.map EMEvent.collisionId).Nodup := (hsub.map _).nodup hids
  have hperm : (joinGroups (groupsBy colBin l2)).Perm l2 := joinGroups_perm colBin l2
  have hjoin : ((joinGroups (groupsBy colBin l2)).map EMEvent.collisionId).Nodup :=
    ((hperm.map EMEvent.collisionId).nodup_iff).mpr hids2
  have hgroups : ∀ g ∈ groupsBy colBin l2, (g.map EMEvent.collisionId).Nodup := by
    intro g hg
    exact (((group_sublist_join _ g hg).map _)).nodup hjoin
  have hp2 : p ∈ flattenRuns (binRuns 1000 (groupsBy colBin l2)) :=
    mixLoop_subset pt nd _ _ p hp
  exact binRuns_pairs_distinct 1000 _ hgroups p hp2

/-- Claim C4, witness: the two events of one processed mixed pair carry
distinct collision ids. -/
theorem pair_distinct_witness :
    readoutDemoEvent1.collisionId ≠ readoutDemoEvent2.collisionId :=
  pair_distinct_rule.2.2 PairType.kPCMPHOS 10 [readoutDemoEvent1, readoutDemoEvent2]
    (by decide) (readoutDemoEvent1, readoutDemoEvent2) (by decide)
